import Mathlib

/-
Verification of the upstream cluster host-management core
(`source/common/upstream/upstream_impl.cc`): the dynamic host-list
reconciler, healthy-host snapshot publication, load-balancer policy
validation, circuit-breaker resource-manager loading, and the strict-DNS
resolve cycle.  Hosts are modelled as records carrying an explicit object
identity `hid`, so that in-place mutation of a retained C++ host object is
rendered as a record update that preserves `hid`.
-/

namespace EnvoyUpstream

/-- A single upstream endpoint, mirroring `HostImpl`.  `hid` stands for the
object identity of the C++ heap object; mutating a field in place keeps
`hid` unchanged. -/
structure Host where
  hid : Nat
  hostname : String
  address : String
  weight : Nat
  zone : String
  failedActiveHC : Bool
  failedOutlierCheck : Bool
deriving DecidableEq, Repr

/-- `Host::healthy()`: no health flag set. -/
def Host.healthy (h : Host) : Bool :=
  !h.failedActiveHC && !h.failedOutlierCheck

/-- The clamp in `HostImpl::weight`: `std::max(1U, std::min(100U, new_weight))`. -/
def clampWeight (w : Nat) : Nat := max 1 (min 100 w)

/-- `HostImpl::weight(new_weight)`: in-place overwrite of the weight field. -/
def Host.setWeight (h : Host) (w : Nat) : Host :=
  { h with weight := clampWeight w }

/-- `healthFlagSet(Host::HealthFlag::FAILED_ACTIVE_HC)`. -/
def Host.setFailedActiveHC (h : Host) : Host :=
  { h with failedActiveHC := true }

/-- The inner loop of `updateDynamicHostList` for a single candidate: walk
`current_hosts`, and every host whose address equals the candidate address
gets its weight overwritten and is moved into the final list (first
component); the rest stay in the working set (second component). -/
def extractMatches (addr : String) (w : Nat) : List Host → List Host × List Host
  | [] => ([], [])
  | h :: rest =>
    let r := extractMatches addr w rest
    if h.address = addr then (h.setWeight w :: r.1, r.2) else (r.1, h :: r.2)

/-- Result of the candidate-processing loop of `updateDynamicHostList`:
the accumulated `final_hosts`, the remaining `current_hosts` working set,
the accumulated `hosts_added`, and the running `max_host_weight`. -/
structure ScanResult where
  finalHosts : List Host
  remaining : List Host
  hostsAdded : List Host
  maxWeight : Nat
deriving DecidableEq, Repr

/-- The candidate loop of `updateDynamicHostList` (lines 362-401): skip
candidates whose address was already seen (`host_addresses` dedup), match
the rest against the working set, and append unmatched candidates as new
hosts (flagged `FAILED_ACTIVE_HC` when `depend_on_hc`). -/
def processCandidates (dependOnHc : Bool) : List String → List Host → List Host → ScanResult
  | _, current, [] => ⟨[], current, [], 1⟩
  | seen, current, host :: rest =>
    if host.address ∈ seen then
      processCandidates dependOnHc seen current rest
    else
      let m := extractMatches host.address host.weight current
      if m.1.isEmpty then
        let newHost := if dependOnHc then host.setFailedActiveHC else host
        let r := processCandidates dependOnHc (host.address :: seen) m.2 rest
        ⟨newHost :: r.finalHosts, r.remaining, newHost :: r.hostsAdded,
          max host.weight r.maxWeight⟩
      else
        let r := processCandidates dependOnHc (host.address :: seen) m.2 rest
        ⟨m.1 ++ r.finalHosts, r.remaining, r.hostsAdded, max host.weight r.maxWeight⟩

/-- Result of the health-check-gated stale loop (lines 404-417): hosts kept
into the final list, hosts left in the working set, running max weight. -/
structure StaleResult where
  kept : List Host
  removed : List Host
  maxWeight : Nat
deriving DecidableEq, Repr

/-- The gated stale loop of `updateDynamicHostList`: a stale host whose
`FAILED_ACTIVE_HC` flag is clear is moved into the final list; one whose
flag is set stays in the working set (and will be reported removed). -/
def filterStale : List Host → StaleResult
  | [] => ⟨[], [], 1⟩
  | h :: rest =>
    let r := filterStale rest
    if h.failedActiveHC then ⟨r.kept, h :: r.removed, r.maxWeight⟩
    else ⟨h :: r.kept, r.removed, max h.weight r.maxWeight⟩

/-- Result of `updateDynamicHostList`: the returned boolean, the new value
of the `current_hosts` out-parameter, `hosts_added`, `hosts_removed`, and
the value published to the `max_host_weight` gauge. -/
structure UpdateResult where
  changed : Bool
  finalHosts : List Host
  hostsAdded : List Host
  hostsRemoved : List Host
  maxHostWeight : Nat
deriving DecidableEq, Repr

/-- Lines 421-430 of `updateDynamicHostList`: `changed` is computed from
`hosts_added` and what is left in `current_hosts` at that point; when
changed, the leftover working set becomes `hosts_removed`; either way the
final list is installed as the new `current_hosts`. -/
def mkResult (finalHosts added remaining : List Host) (maxW : Nat) : UpdateResult :=
  if !added.isEmpty || !remaining.isEmpty then ⟨true, finalHosts, added, remaining, maxW⟩
  else ⟨false, finalHosts, added, [], maxW⟩

/-- `BaseDynamicClusterImpl::updateDynamicHostList` (lines 350-431). -/
def updateDynamicHostList (newHosts currentHosts : List Host)
    (dependOnHc : Bool) : UpdateResult :=
  let s := processCandidates dependOnHc [] currentHosts newHosts
  if !s.remaining.isEmpty && dependOnHc then
    let p := filterStale s.remaining
    mkResult (s.finalHosts ++ p.kept) s.hostsAdded p.removed (max s.maxWeight p.maxWeight)
  else
    mkResult s.finalHosts s.hostsAdded s.remaining s.maxWeight

/-- The `current_hosts` working set at the end of the candidate loop, i.e.
just before the stale-host processing ("step 3") starts. -/
def preStep3Remaining (newHosts currentHosts : List Host) (dependOnHc : Bool) : List Host :=
  (processCandidates dependOnHc [] currentHosts newHosts).remaining

/-- Keeping only the first occurrence of each address, with an accumulator
of already-seen addresses; mirrors the `host_addresses` set of
`updateDynamicHostList`. -/
def dedupByAddress (seen : List String) : List Host → List Host
  | [] => []
  | h :: rest =>
    if h.address ∈ seen then dedupByAddress seen rest
    else h :: dedupByAddress (h.address :: seen) rest

/-- `ClusterImplBase::createHealthyHostList`: keep the healthy hosts, in
order. -/
def createHealthyHostList (hosts : List Host) : List Host :=
  hosts.filter (fun h => h.healthy)

/-- `ClusterImplBase::createHealthyHostLists`: per-zone healthy filtering. -/
def createHealthyHostLists (hosts : List (List Host)) : List (List Host) :=
  hosts.map (fun zoneHosts => zoneHosts.filter (fun h => h.healthy))

/-- The snapshot triple held by `HostSetImpl`. -/
structure HostSetState where
  hosts : List Host
  healthyHosts : List Host
  hostsPerZone : List (List Host)
  healthyHostsPerZone : List (List Host)
deriving DecidableEq, Repr

/-- `HostSetImpl::updateHosts`: replace the published snapshot with the
given lists. -/
def updateHosts (newAll newHealthy : List Host)
    (newAllPerZone newHealthyPerZone : List (List Host)) : HostSetState :=
  ⟨newAll, newHealthy, newAllPerZone, newHealthyPerZone⟩

/-- The shape every publication in the source takes (static construction at
line 346, `updateAllHosts` at line 483, `reloadHealthyHosts` at line 293):
the healthy lists are recomputed from the all-hosts lists with
`createHealthyHostList(s)`. -/
def publishHosts (all : List Host) (perZone : List (List Host)) : HostSetState :=
  updateHosts all (createHealthyHostList all) perZone (createHealthyHostLists perZone)

/-- `ClusterImplBase::reloadHealthyHosts`: republish from the current
all-hosts list, recomputing the healthy subsets. -/
def reloadHealthyHosts (s : HostSetState) : HostSetState :=
  updateHosts s.hosts (createHealthyHostList s.hosts)
    s.hostsPerZone (createHealthyHostLists s.hostsPerZone)

/-- `envoy::api::v2::Cluster::LbPolicy`. -/
inductive LbPolicy
  | ROUND_ROBIN
  | LEAST_REQUEST
  | RANDOM
  | RING_HASH
  | ORIGINAL_DST_LB
  | STANDBY
deriving DecidableEq, Repr

/-- `envoy::api::v2::Cluster::DiscoveryType`. -/
inductive DiscoveryType
  | STATIC
  | STRICT_DNS
  | LOGICAL_DNS
  | ORIGINAL_DST
  | EDS
deriving DecidableEq, Repr

/-- `Envoy::Upstream::LoadBalancerType`
(`include/envoy/upstream/load_balancer_type.h`). -/
inductive LoadBalancerType
  | RoundRobin
  | LeastRequest
  | Random
  | RingHash
  | OriginalDst
  | StandBy
deriving DecidableEq, Repr

/-- The `lb_policy` switch of `ClusterInfoImpl::ClusterInfoImpl`
(lines 96-121); the thrown `EnvoyException` is rendered as `.error`. -/
def resolveLbType (lbPolicy : LbPolicy) (clusterType : DiscoveryType) :
    Except String LoadBalancerType :=
  match lbPolicy with
  | .ROUND_ROBIN => .ok .RoundRobin
  | .LEAST_REQUEST => .ok .LeastRequest
  | .RANDOM => .ok .Random
  | .RING_HASH => .ok .RingHash
  | .ORIGINAL_DST_LB =>
    if clusterType = .ORIGINAL_DST then .ok .OriginalDst
    else .error "cluster: LB type original_dst_lb may only be used with cluser type original_dst"
  | .STANDBY => .ok .StandBy

/-- `envoy::api::v2::RoutingPriority`. -/
inductive RoutingPriority
  | DEFAULT
  | HIGH
deriving DecidableEq, Repr

/-- One `envoy::api::v2::CircuitBreakers::Thresholds` entry; wrapped proto
fields that may be unset are `Option`. -/
structure CircuitBreakerThresholds where
  priority : RoutingPriority
  maxConnections : Option Nat
  maxPendingRequests : Option Nat
  maxRequests : Option Nat
  maxRetries : Option Nat
deriving DecidableEq, Repr

/-- The four ceilings handed to `ResourceManagerImpl`. -/
structure ResourceManagerCeilings where
  maxConnections : Nat
  maxPendingRequests : Nat
  maxRequests : Nat
  maxRetries : Nat
deriving DecidableEq, Repr

/-- `ClusterInfoImpl::ResourceManagers::load` (lines 306-331): start from
the 1024/1024/1024/3 defaults, and if a thresholds entry for the requested
priority exists (first match of `std::find_if`), take each field from it,
falling back to the default when the field is unset. -/
def loadResourceManager (thresholds : List CircuitBreakerThresholds)
    (priority : RoutingPriority) : ResourceManagerCeilings :=
  match thresholds.find? (fun t => t.priority == priority) with
  | none => ⟨1024, 1024, 1024, 3⟩
  | some t =>
    ⟨t.maxConnections.getD 1024, t.maxPendingRequests.getD 1024,
      t.maxRequests.getD 1024, t.maxRetries.getD 3⟩

/-- The two per-priority managers built by
`ClusterInfoImpl::ResourceManagers::ResourceManagers` (lines 297-304). -/
structure ResourceManagers where
  defaultManager : ResourceManagerCeilings
  highManager : ResourceManagerCeilings
deriving DecidableEq, Repr

/-- `ResourceManagers` construction: one manager per priority level. -/
def mkResourceManagers (thresholds : List CircuitBreakerThresholds) : ResourceManagers :=
  ⟨loadResourceManager thresholds .DEFAULT, loadResourceManager thresholds .HIGH⟩

/-- The host list built in the DNS resolve callback (lines 511-520): one
fresh `HostImpl` per resolved address, address combined with the target's
fixed port, weight 1, empty zone, no flags; `baseId` supplies the fresh
object identities allocated by `new`. -/
def mkDnsHosts (dnsAddress : String) (port : Nat) (baseId : Nat) : List String → List Host
  | [] => []
  | a :: rest =>
    ⟨baseId, dnsAddress, a ++ ":" ++ toString port, 1, "", false, false⟩ ::
      mkDnsHosts dnsAddress port (baseId + 1) rest

/-- Cluster-side state of `StrictDnsClusterImpl`: the per-target retained
lists (`ResolveTarget::hosts_`) and the published snapshot. -/
structure DnsClusterState where
  targetHosts : List (List Host)
  hostSet : HostSetState
deriving DecidableEq, Repr

/-- `StrictDnsClusterImpl::updateAllHosts` (lines 473-485): concatenate
every target's retained list. -/
def updateAllHosts (targetHosts : List (List Host)) : List Host :=
  targetHosts.flatten

/-- The tail of `ResolveTarget::startResolve`'s completion callback
(lines 522-527): reconcile the resolved list against this target's own
retained list with `depend_on_hc = false`; the final list is installed as
the target's retained list either way, and only when the reconciler
reports a change is the cluster-wide list recomputed and republished. -/
def dnsResolveStep (s : DnsClusterState) (targetIdx : Nat) (resolved : List Host) :
    DnsClusterState × UpdateResult :=
  let cur := s.targetHosts.getD targetIdx []
  let r := updateDynamicHostList resolved cur false
  let targets := s.targetHosts.set targetIdx r.finalHosts
  if r.changed then
    (⟨targets, publishHosts (updateAllHosts targets) []⟩, r)
  else
    (⟨targets, s.hostSet⟩, r)

/-! ### Lemmas about the inner matching loop -/

theorem extractMatches_remaining_subset {a : String} {w : Nat} {l : List Host} {x : Host}
    (hx : x ∈ (extractMatches a w l).2) : x ∈ l := by
  induction l with
  | nil => simp [extractMatches] at hx
  | cons h rest ih =>
    simp only [extractMatches] at hx
    by_cases heq : h.address = a
    · simp only [if_pos heq] at hx
      exact List.mem_cons_of_mem _ (ih hx)
    · simp only [if_neg heq, List.mem_cons] at hx
      rcases hx with hx | hx
      · exact hx ▸ List.mem_cons_self _ _
      · exact List.mem_cons_of_mem _ (ih hx)

theorem extractMatches_remaining_ne {a : String} {w : Nat} {l : List Host} {x : Host}
    (hx : x ∈ (extractMatches a w l).2) : x.address ≠ a := by
  induction l with
  | nil => simp [extractMatches] at hx
  | cons h rest ih =>
    simp only [extractMatches] at hx
    by_cases heq : h.address = a
    · simp only [if_pos heq] at hx
      exact ih hx
    · simp only [if_neg heq, List.mem_cons] at hx
      rcases hx with hx | hx
      · exact hx ▸ heq
      · exact ih hx

theorem mem_extractMatches_remaining {a : String} {w : Nat} {l : List Host} {x : Host}
    (hx : x ∈ l) (hne : x.address ≠ a) : x ∈ (extractMatches a w l).2 := by
  induction l with
  | nil => simp at hx
  | cons h rest ih =>
    simp only [extractMatches]
    rcases List.mem_cons.mp hx with hx | hx
    · subst hx
      simp only [if_neg hne]
      exact List.mem_cons_self _ _
    · by_cases heq : h.address = a
      · simp only [if_pos heq]
        exact ih hx
      · simp only [if_neg heq]
        exact List.mem_cons_of_mem _ (ih hx)

theorem mem_extractMatches_matched {a : String} {w : Nat} {l : List Host} {x : Host}
    (hx : x ∈ l) (heq : x.address = a) : x.setWeight w ∈ (extractMatches a w l).1 := by
  induction l with
  | nil => simp at hx
  | cons h rest ih =>
    simp only [extractMatches]
    rcases List.mem_cons.mp hx with hx | hx
    · subst hx
      simp only [if_pos heq]
      exact List.mem_cons_self _ _
    · by_cases hha : h.address = a
      · simp only [if_pos hha]
        exact List.mem_cons_of_mem _ (ih hx)
      · simp only [if_neg hha]
        exact ih hx

theorem extractMatches_matched_mem {a : String} {w : Nat} {l : List Host} {y : Host}
    (hy : y ∈ (extractMatches a w l).1) :
    ∃ x, x ∈ l ∧ x.address = a ∧ y = x.setWeight w := by
  induction l with
  | nil => simp [extractMatches] at hy
  | cons h rest ih =>
    simp only [extractMatches] at hy
    by_cases heq : h.address = a
    · simp only [if_pos heq, List.mem_cons] at hy
      rcases hy with hy | hy
      · exact ⟨h, List.mem_cons_self _ _, heq, hy⟩
      · obtain ⟨x, hx, hxa, hxy⟩ := ih hy
        exact ⟨x, List.mem_cons_of_mem _ hx, hxa, hxy⟩
    · simp only [if_neg heq] at hy
      obtain ⟨x, hx, hxa, hxy⟩ := ih hy
      exact ⟨x, List.mem_cons_of_mem _ hx, hxa, hxy⟩

theorem extractMatches_of_no_match {a : String} {w : Nat} {l : List Host}
    (h : ∀ x ∈ l, x.address ≠ a) : extractMatches a w l = ([], l) := by
  induction l with
  | nil => rfl
  | cons y rest ih =>
    have hy : y.address ≠ a := h y (List.mem_cons_self _ _)
    simp only [extractMatches, if_neg hy,
      ih (fun x hx => h x (List.mem_cons_of_mem _ hx))]

/-! ### Lemmas about the gated stale loop -/

theorem filterStale_kept_mem {l : List Host} {x : Host}
    (hx : x ∈ l) (hflag : x.failedActiveHC = false) : x ∈ (filterStale l).kept := by
  induction l with
  | nil => simp at hx
  | cons h rest ih =>
    simp only [filterStale]
    rcases List.mem_cons.mp hx with hx | hx
    · subst hx
      rw [if_neg (by simp [hflag])]
      exact List.mem_cons_self _ _
    · by_cases hh : h.failedActiveHC
      · simp only [if_pos hh]
        exact ih hx
      · simp only [if_neg hh]
        exact List.mem_cons_of_mem _ (ih hx)

theorem filterStale_removed_mem {l : List Host} {x : Host}
    (hx : x ∈ l) (hflag : x.failedActiveHC = true) : x ∈ (filterStale l).removed := by
  induction l with
  | nil => simp at hx
  | cons h rest ih =>
    simp only [filterStale]
    rcases List.mem_cons.mp hx with hx | hx
    · subst hx
      simp only [if_pos hflag]
      exact List.mem_cons_self _ _
    · by_cases hh : h.failedActiveHC
      · simp only [if_pos hh]
        exact List.mem_cons_of_mem _ (ih hx)
      · simp only [if_neg hh]
        exact ih hx

/-! ### Lemmas about the `changed` computation -/

theorem mkResult_finalHosts (f a r : List Host) (m : Nat) :
    (mkResult f a r m).finalHosts = f := by
  unfold mkResult
  split <;> rfl

theorem mkResult_hostsAdded (f a r : List Host) (m : Nat) :
    (mkResult f a r m).hostsAdded = a := by
  unfold mkResult
  split <;> rfl

theorem mkResult_hostsRemoved_of_ne (f a r : List Host) (m : Nat) (hr : r ≠ []) :
    (mkResult f a r m).hostsRemoved = r := by
  unfold mkResult
  rw [if_pos]
  simp [List.isEmpty_iff, hr]

theorem mkResult_changed_iff (f a r : List Host) (m : Nat) :
    (mkResult f a r m).changed = true ↔
      ((mkResult f a r m).hostsAdded ≠ [] ∨ (mkResult f a r m).hostsRemoved ≠ []) := by
  unfold mkResult
  by_cases ha : a = []
  · by_cases hrr : r = []
    · subst ha; subst hrr
      simp
    · rw [if_pos (by simp [List.isEmpty_iff, hrr])]
      simp [hrr]
  · rw [if_pos (by simp [List.isEmpty_iff, ha])]
    simp [ha]

/-! ### Lemmas about the candidate loop -/

theorem processCandidates_remaining_mem (d : Bool) (cands : List Host) :
    ∀ (seen : List String) (current : List Host) (x : Host), x ∈ current →
      x.address ∉ cands.map Host.address →
      x ∈ (processCandidates d seen current cands).remaining := by
  induction cands with
  | nil =>
    intro seen current x hx _
    simpa [processCandidates] using hx
  | cons c rest ih =>
    intro seen current x hx hn
    simp only [List.map_cons, List.mem_cons, not_or] at hn
    obtain ⟨hnc, hnr⟩ := hn
    by_cases hmem : c.address ∈ seen
    · simp only [processCandidates, if_pos hmem]
      exact ih seen current x hx hnr
    · have hx2 : x ∈ (extractMatches c.address c.weight current).2 :=
        mem_extractMatches_remaining hx hnc
      simp only [processCandidates, if_neg hmem]
      by_cases he : (extractMatches c.address c.weight current).1.isEmpty
      · simp only [if_pos he]
        exact ih _ _ x hx2 hnr
      · simp only [if_neg he]
        exact ih _ _ x hx2 hnr

theorem processCandidates_dedup (d : Bool) (cands : List Host) :
    ∀ (seen : List String) (current : List Host),
      processCandidates d seen current cands =
        processCandidates d seen current (dedupByAddress seen cands) := by
  induction cands with
  | nil => intro seen current; rfl
  | cons c rest ih =>
    intro seen current
    by_cases hmem : c.address ∈ seen
    · simp only [dedupByAddress, if_pos hmem, processCandidates]
      exact ih seen current
    · simp only [dedupByAddress, if_neg hmem, processCandidates]
      by_cases he : (extractMatches c.address c.weight current).1.isEmpty
      · simp only [if_pos he]
        rw [ih (c.address :: seen) (extractMatches c.address c.weight current).2]
      · simp only [if_neg he]
        rw [ih (c.address :: seen) (extractMatches c.address c.weight current).2]

theorem processCandidates_final_matched (d : Bool) (pre : List Host) :
    ∀ (seen : List String) (current : List Host) (c x : Host) (post : List Host),
      (∀ y ∈ pre, y.address ≠ c.address) → c.address ∉ seen →
      x ∈ current → x.address = c.address →
      x.setWeight c.weight ∈
        (processCandidates d seen current (pre ++ c :: post)).finalHosts := by
  induction pre with
  | nil =>
    intro seen current c x post _ hseen hx haddr
    have hm : x.setWeight c.weight ∈ (extractMatches c.address c.weight current).1 :=
      mem_extractMatches_matched hx haddr
    have hne : ¬(extractMatches c.address c.weight current).1.isEmpty := by
      simp only [List.isEmpty_iff]
      exact List.ne_nil_of_mem hm
    simp only [List.nil_append, processCandidates, if_neg hseen, if_neg hne]
    exact List.mem_append_left _ hm
  | cons p pre' ih =>
    intro seen current c x post hpre hseen hx haddr
    have hpc : p.address ≠ c.address := hpre p (List.mem_cons_self _ _)
    have hpre' : ∀ y ∈ pre', y.address ≠ c.address :=
      fun y hy => hpre y (List.mem_cons_of_mem _ hy)
    simp only [List.cons_append, processCandidates]
    by_cases hmem : p.address ∈ seen
    · simp only [if_pos hmem]
      exact ih seen current c x post hpre' hseen hx haddr
    · have hx2 : x ∈ (extractMatches p.address p.weight current).2 :=
        mem_extractMatches_remaining hx (by rw [haddr]; exact fun h => hpc h.symm)
      have hseen' : c.address ∉ p.address :: seen := by
        simp only [List.mem_cons, not_or]
        exact ⟨fun h => hpc h.symm, hseen⟩
      simp only [if_neg hmem]
      by_cases he : (extractMatches p.address p.weight current).1.isEmpty
      · simp only [if_pos he]
        exact List.mem_cons_of_mem _ (ih _ _ c x post hpre' hseen' hx2 haddr)
      · simp only [if_neg he]
        exact List.mem_append_right _ (ih _ _ c x post hpre' hseen' hx2 haddr)

theorem processCandidates_final_src (d : Bool) (cands : List Host) :
    ∀ (seen : List String) (current : List Host) (y : Host),
      y ∈ (processCandidates d seen current cands).finalHosts →
      y ∈ (processCandidates d seen current cands).hostsAdded ∨
        ∃ x, x ∈ current ∧ ∃ c, c ∈ cands ∧ x.address = c.address ∧
          y = x.setWeight c.weight := by
  induction cands with
  | nil =>
    intro seen current y hy
    simp [processCandidates] at hy
  | cons c rest ih =>
    intro seen current y hy
    by_cases hmem : c.address ∈ seen
    · simp only [processCandidates, if_pos hmem] at hy ⊢
      rcases ih seen current y hy with h | ⟨x, hx, c', hc', hax, hw⟩
      · exact Or.inl h
      · exact Or.inr ⟨x, hx, c', List.mem_cons_of_mem _ hc', hax, hw⟩
    · simp only [processCandidates, if_neg hmem] at hy ⊢
      by_cases he : (extractMatches c.address c.weight current).1.isEmpty
      · simp only [if_pos he] at hy ⊢
        rcases List.mem_cons.mp hy with hy | hy
        · exact Or.inl (hy ▸ List.mem_cons_self _ _)
        · rcases ih _ _ y hy with h | ⟨x, hx, c', hc', hax, hw⟩
          · exact Or.inl (List.mem_cons_of_mem _ h)
          · exact Or.inr ⟨x, extractMatches_remaining_subset hx, c',
              List.mem_cons_of_mem _ hc', hax, hw⟩
      · simp only [if_neg he] at hy ⊢
        rcases List.mem_append.mp hy with hy | hy
        · obtain ⟨x, hx, hxa, hxy⟩ := extractMatches_matched_mem hy
          exact Or.inr ⟨x, hx, c, List.mem_cons_self _ _, hxa, hxy⟩
        · rcases ih _ _ y hy with h | ⟨x, hx, c', hc', hax, hw⟩
          · exact Or.inl h
          · exact Or.inr ⟨x, extractMatches_remaining_subset hx, c',
              List.mem_cons_of_mem _ hc', hax, hw⟩

theorem processCandidates_closed (d : Bool) (cands : List Host) :
    ∀ (seen : List String) (current : List Host),
      (∀ x ∈ current, x.address ∈ cands.map Host.address ∧ x.address ∉ seen) →
      (∀ c ∈ cands, c.address ∈ seen ∨ c.address ∈ current.map Host.address) →
      (processCandidates d seen current cands).remaining = [] ∧
        (processCandidates d seen current cands).hostsAdded = [] := by
  induction cands with
  | nil =>
    intro seen current h1 _
    match current with
    | [] => exact ⟨rfl, rfl⟩
    | y :: ys =>
      have := (h1 y (List.mem_cons_self _ _)).1
      simp at this
  | cons c rest ih =>
    intro seen current h1 h2
    by_cases hmem : c.address ∈ seen
    · simp only [processCandidates, if_pos hmem]
      apply ih seen current
      · intro x hx
        obtain ⟨hin, hns⟩ := h1 x hx
        refine ⟨?_, hns⟩
        simp only [List.map_cons, List.mem_cons] at hin
        rcases hin with h | h
        · exact absurd (h ▸ hmem) hns
        · exact h
      · intro c' hc'
        exact h2 c' (List.mem_cons_of_mem _ hc')
    · have hcur : c.address ∈ current.map Host.address :=
        (h2 c (List.mem_cons_self _ _)).resolve_left hmem
      obtain ⟨y, hy, hya⟩ := List.mem_map.mp hcur
      have hmym : y.setWeight c.weight ∈ (extractMatches c.address c.weight current).1 :=
        mem_extractMatches_matched hy hya
      have hne : ¬(extractMatches c.address c.weight current).1.isEmpty := by
        simp only [List.isEmpty_iff]
        exact List.ne_nil_of_mem hmym
      simp only [processCandidates, if_neg hmem, if_neg hne]
      apply ih (c.address :: seen) (extractMatches c.address c.weight current).2
      · intro x hx
        have hxc : x ∈ current := extractMatches_remaining_subset hx
        have hxa : x.address ≠ c.address := extractMatches_remaining_ne hx
        obtain ⟨hin, hns⟩ := h1 x hxc
        refine ⟨?_, ?_⟩
        · simp only [List.map_cons, List.mem_cons] at hin
          rcases hin with h | h
          · exact absurd h hxa
          · exact h
        · simp only [List.mem_cons, not_or]
          exact ⟨hxa, hns⟩
      · intro c' hc'
        rcases h2 c' (List.mem_cons_of_mem _ hc') with h | h
        · exact Or.inl (List.mem_cons_of_mem _ h)
        · by_cases hca : c'.address = c.address
          · exact Or.inl (by simp [hca])
          · obtain ⟨z, hz, hza⟩ := List.mem_map.mp h
            refine Or.inr (List.mem_map.mpr ⟨z, ?_, hza⟩)
            exact mem_extractMatches_remaining hz (fun hh => hca (hza ▸ hh ▸ rfl))

theorem processCandidates_aligned (d : Bool) {cands cur : List Host}
    (hf : List.Forall₂ (fun c h => c.address = h.address) cands cur) :
    ∀ (seen : List String), (cur.map Host.address).Nodup →
      (∀ x ∈ cur, x.address ∉ seen) →
      (processCandidates d seen cur cands).finalHosts =
          List.zipWith (fun h c => h.setWeight c.weight) cur cands ∧
        (processCandidates d seen cur cands).remaining = [] ∧
        (processCandidates d seen cur cands).hostsAdded = [] := by
  induction hf with
  | nil =>
    intro seen _ _
    exact ⟨rfl, rfl, rfl⟩
  | cons hch htail ih =>
    rename_i c h cs hs
    intro seen hnd hseen
    have hcs : c.address ∉ seen := hch ▸ hseen h (List.mem_cons_self _ _)
    have hhd : h.address ∉ hs.map Host.address := by
      simp only [List.map_cons, List.nodup_cons] at hnd
      exact hnd.1
    have hext : extractMatches c.address c.weight (h :: hs) =
        (h.setWeight c.weight :: [], hs) := by
      have hnom : ∀ x ∈ hs, x.address ≠ c.address := by
        intro x hx hxe
        exact hhd (List.mem_map.mpr ⟨x, hx, hxe.trans hch⟩)
      simp only [extractMatches, if_pos hch.symm, extractMatches_of_no_match hnom]
    have hne : ¬(extractMatches c.address c.weight (h :: hs)).1.isEmpty := by
      rw [hext]
      simp
    simp only [processCandidates, if_neg hcs, if_neg hne, hext]
    have ihr := ih (c.address :: seen)
      (by simp only [List.map_cons, List.nodup_cons] at hnd; exact hnd.2)
      (by
        intro x hx
        simp only [List.mem_cons, not_or]
        constructor
        · intro hxe
          exact hhd (List.mem_map.mpr ⟨x, hx, hxe.trans hch⟩)
        · exact hseen x (List.mem_cons_of_mem _ hx))
    refine ⟨?_, ihr.2.1, ihr.2.2⟩
    simp only [List.zipWith_cons_cons, ← ihr.1]
    rfl

/-! ### Equation lemmas for `updateDynamicHostList` -/

theorem updateDynamicHostList_gated (newHosts currentHosts : List Host)
    (hne : (processCandidates true [] currentHosts newHosts).remaining ≠ []) :
    updateDynamicHostList newHosts currentHosts true =
      mkResult
        ((processCandidates true [] currentHosts newHosts).finalHosts ++
          (filterStale (processCandidates true [] currentHosts newHosts).remaining).kept)
        (processCandidates true [] currentHosts newHosts).hostsAdded
        (filterStale (processCandidates true [] currentHosts newHosts).remaining).removed
        (max (processCandidates true [] currentHosts newHosts).maxWeight
          (filterStale (processCandidates true [] currentHosts newHosts).remaining).maxWeight) := by
  simp only [updateDynamicHostList]
  rw [if_pos]
  simp [List.isEmpty_iff, hne]

theorem updateDynamicHostList_scan_empty (newHosts currentHosts : List Host) (d : Bool)
    (hrem : (processCandidates d [] currentHosts newHosts).remaining = [])
    (hadd : (processCandidates d [] currentHosts newHosts).hostsAdded = []) :
    updateDynamicHostList newHosts currentHosts d =
      ⟨false, (processCandidates d [] currentHosts newHosts).finalHosts, [], [],
        (processCandidates d [] currentHosts newHosts).maxWeight⟩ := by
  simp only [updateDynamicHostList]
  rw [if_neg]
  · unfold mkResult
    rw [if_neg, hadd]
    simp [hadd, hrem]
  · simp [hrem]

theorem scan_finalHosts_subset_finalHosts (newHosts currentHosts : List Host) (d : Bool)
    {x : Host}
    (hx : x ∈ (processCandidates d [] currentHosts newHosts).finalHosts) :
    x ∈ (updateDynamicHostList newHosts currentHosts d).finalHosts := by
  simp only [updateDynamicHostList]
  split
  · rw [mkResult_finalHosts]
    exact List.mem_append_left _ hx
  · rw [mkResult_finalHosts]
    exact hx

/-! ### Claim theorems -/

/-- Claim C1, counterexample: with retained `[A(healthy), B(failed-active-hc)]`
and candidate list `[]` under health-check gating, the code does the
opposite of the claim: it retains `A` in the final list and removes `B`;
`A` is not in `hosts_removed` and `B` is not in the final list. -/
theorem gated_removal_claim_false :
    (updateDynamicHostList [] [⟨0, "", "addrA", 1, "", false, false⟩,
        ⟨1, "", "addrB", 1, "", true, false⟩] true).hostsRemoved =
      [⟨1, "", "addrB", 1, "", true, false⟩] ∧
    (updateDynamicHostList [] [⟨0, "", "addrA", 1, "", false, false⟩,
        ⟨1, "", "addrB", 1, "", true, false⟩] true).finalHosts =
      [⟨0, "", "addrA", 1, "", false, false⟩] ∧
    (⟨0, "", "addrA", 1, "", false, false⟩ : Host) ∉
      (updateDynamicHostList [] [⟨0, "", "addrA", 1, "", false, false⟩,
        ⟨1, "", "addrB", 1, "", true, false⟩] true).hostsRemoved ∧
    (⟨1, "", "addrB", 1, "", true, false⟩ : Host) ∉
      (updateDynamicHostList [] [⟨0, "", "addrA", 1, "", false, false⟩,
        ⟨1, "", "addrB", 1, "", true, false⟩] true).finalHosts := by
  decide

/-- Claim C1, amended: in a reconciliation pass with health-check gating
(`depend_on_hc = true`), every stale host whose `FAILED_ACTIVE_HC` flag is
clear is retained in the final list, and every stale host whose flag is
set is removed (placed in `hosts_removed`). -/
theorem gated_stale_host_fate (newHosts currentHosts : List Host) (x : Host)
    (hx : x ∈ currentHosts) (hstale : x.address ∉ newHosts.map Host.address) :
    (x.failedActiveHC = false →
      x ∈ (updateDynamicHostList newHosts currentHosts true).finalHosts) ∧
    (x.failedActiveHC = true →
      x ∈ (updateDynamicHostList newHosts currentHosts true).hostsRemoved) := by
  have hrem : x ∈ (processCandidates true [] currentHosts newHosts).remaining :=
    processCandidates_remaining_mem true newHosts [] currentHosts x hx hstale
  rw [updateDynamicHostList_gated newHosts currentHosts (List.ne_nil_of_mem hrem)]
  constructor
  · intro hflag
    rw [mkResult_finalHosts]
    exact List.mem_append_right _ (filterStale_kept_mem hrem hflag)
  · intro hflag
    have hmem : x ∈ (filterStale
        (processCandidates true [] currentHosts newHosts).remaining).removed :=
      filterStale_removed_mem hrem hflag
    rw [mkResult_hostsRemoved_of_ne _ _ _ _ (List.ne_nil_of_mem hmem)]
    exact hmem

/-- Witness for the amended claim C1 at a concrete input: retained
`[A(healthy), B(failed-active-hc)]`, candidates `[]`: `A` lands in the
final list and `B` in `hosts_removed`. -/
theorem gated_stale_host_fate_witness :
    (⟨0, "", "addrA", 1, "", false, false⟩ : Host) ∈
      (updateDynamicHostList [] [⟨0, "", "addrA", 1, "", false, false⟩,
        ⟨1, "", "addrB", 1, "", true, false⟩] true).finalHosts ∧
    (⟨1, "", "addrB", 1, "", true, false⟩ : Host) ∈
      (updateDynamicHostList [] [⟨0, "", "addrA", 1, "", false, false⟩,
        ⟨1, "", "addrB", 1, "", true, false⟩] true).hostsRemoved := by
  refine ⟨?_, ?_⟩
  · exact (gated_stale_host_fate [] _ _ (by decide) (by decide)).1 rfl
  · exact (gated_stale_host_fate [] _ _ (by decide) (by decide)).2 rfl

/-- Claim C2, counterexample: with gating on, retained `[A(healthy)]` and
candidates `[]`, the working set is non-empty before step 3 starts and
nothing is added, yet the function returns `changed = false` — the claimed
predicate (non-empty pre-step-3 working set forces `changed = true`)
fails. -/
theorem changed_predicate_claim_false :
    preStep3Remaining [] [⟨0, "", "addrA", 1, "", false, false⟩] true ≠ [] ∧
    (updateDynamicHostList [] [⟨0, "", "addrA", 1, "", false, false⟩]
      true).hostsAdded = [] ∧
    (updateDynamicHostList [] [⟨0, "", "addrA", 1, "", false, false⟩]
      true).changed = false := by
  decide

/-- Claim C2, amended: `changed` is true iff the added-hosts list is
non-empty or the working set is non-empty after the gated filtering of
stale hosts — equivalently, iff some host was added or removed; the final
list is installed as the target's retained list whether or not anything
changed, and when `changed` is false the published snapshot is left
untouched (no notification). -/
theorem changed_iff_added_or_removed (newHosts currentHosts : List Host) (d : Bool)
    (s : DnsClusterState) (i : Nat) (resolved : List Host) :
    ((updateDynamicHostList newHosts currentHosts d).changed = true ↔
      ((updateDynamicHostList newHosts currentHosts d).hostsAdded ≠ [] ∨
        (updateDynamicHostList newHosts currentHosts d).hostsRemoved ≠ [])) ∧
    (dnsResolveStep s i resolved).1.targetHosts =
      s.targetHosts.set i
        (updateDynamicHostList resolved (s.targetHosts.getD i []) false).finalHosts ∧
    ((updateDynamicHostList resolved (s.targetHosts.getD i []) false).changed = false →
      (dnsResolveStep s i resolved).1.hostSet = s.hostSet) := by
  refine ⟨?_, ?_, ?_⟩
  · simp only [updateDynamicHostList]
    split
    · exact mkResult_changed_iff _ _ _ _
    · exact mkResult_changed_iff _ _ _ _
  · simp only [dnsResolveStep]
    split <;> rfl
  · intro hch
    have hnc : ¬((updateDynamicHostList resolved
        (s.targetHosts.getD i []) false).changed = true) := by
      rw [hch]
      simp
    simp only [dnsResolveStep]
    rw [if_neg hnc]

/-- Witness for the amended claim C2 at a concrete input: an empty
resolution against an empty retained list changes nothing, installs the
empty final list, and leaves the snapshot untouched. -/
theorem changed_iff_added_or_removed_witness :
    ((updateDynamicHostList [] [] false).changed = true ↔
      ((updateDynamicHostList [] [] false).hostsAdded ≠ [] ∨
        (updateDynamicHostList [] [] false).hostsRemoved ≠ [])) ∧
    (dnsResolveStep ⟨[[]], publishHosts [] []⟩ 0 []).1.hostSet = publishHosts [] [] := by
  refine ⟨(changed_iff_added_or_removed [] [] false ⟨[[]], publishHosts [] []⟩ 0 []).1, ?_⟩
  exact (changed_iff_added_or_removed [] [] false ⟨[[]], publishHosts [] []⟩ 0 []).2.2 rfl

/-- Claim C4: the reconciler ignores every candidate after the first with a
given address: reconciling any candidate list gives the identical result
to reconciling its first-occurrence-per-address de-duplication; in
particular `[A, B, A]` is processed as `[A, B]`. -/
theorem dedup_keeps_first_occurrence (newHosts currentHosts : List Host) (d : Bool) :
    (updateDynamicHostList newHosts currentHosts d =
      updateDynamicHostList (dedupByAddress [] newHosts) currentHosts d) ∧
    dedupByAddress [] [⟨0, "", "addrA", 1, "", false, false⟩,
        ⟨1, "", "addrB", 1, "", false, false⟩,
        ⟨2, "", "addrA", 5, "", false, false⟩] =
      [⟨0, "", "addrA", 1, "", false, false⟩,
        ⟨1, "", "addrB", 1, "", false, false⟩] := by
  refine ⟨?_, by decide⟩
  simp only [updateDynamicHostList]
  rw [← processCandidates_dedup]

theorem clampWeight_eq_min_max (w : Nat) : clampWeight w = min 100 (max 1 w) := by
  unfold clampWeight
  omega

theorem setWeight_self (h : Host) (h1 : 1 ≤ h.weight) (h2 : h.weight ≤ 100) :
    h.setWeight h.weight = h := by
  have hcl : clampWeight h.weight = h.weight := by
    unfold clampWeight
    omega
  cases h with
  | mk hid hostname address weight zone f1 f2 =>
    simp only [Host.setWeight] at *
    rw [hcl]

theorem zipWith_setWeight_self {cands cur : List Host}
    (hf : List.Forall₂ (fun c h => c.weight = h.weight) cands cur)
    (hw : ∀ x ∈ cur, 1 ≤ x.weight ∧ x.weight ≤ 100) :
    List.zipWith (fun h c => h.setWeight c.weight) cur cands = cur := by
  induction hf with
  | nil => rfl
  | cons hch htail ih =>
    rename_i c h cs hs
    simp only [List.zipWith_cons_cons]
    obtain ⟨hw1, hw2⟩ := hw h (List.mem_cons_self _ _)
    rw [hch, setWeight_self h hw1 hw2, ih (fun x hx => hw x (List.mem_cons_of_mem _ hx))]

/-- Claim C3: reconciling a candidate list identical (pairwise, by address
and weight) to the current retained list — whose addresses are distinct and
whose weights are in the clamp range, as every list produced by the system
is — yields `changed = false`, reports nothing added or removed, and the
final list is literally the retained list: the very same host objects, in
the same order. -/
theorem identical_list_is_noop (newHosts currentHosts : List Host) (d : Bool)
    (hf : List.Forall₂ (fun c h => c.address = h.address ∧ c.weight = h.weight)
      newHosts currentHosts)
    (hnd : (currentHosts.map Host.address).Nodup)
    (hw : ∀ x ∈ currentHosts, 1 ≤ x.weight ∧ x.weight ≤ 100) :
    (updateDynamicHostList newHosts currentHosts d).changed = false ∧
    (updateDynamicHostList newHosts currentHosts d).finalHosts = currentHosts ∧
    (updateDynamicHostList newHosts currentHosts d).hostsAdded = [] ∧
    (updateDynamicHostList newHosts currentHosts d).hostsRemoved = [] := by
  obtain ⟨hfin, hrem, hadd⟩ :=
    processCandidates_aligned d (hf.imp (fun _ _ h => h.1)) [] hnd (by simp)
  rw [updateDynamicHostList_scan_empty newHosts currentHosts d hrem hadd]
  refine ⟨rfl, ?_, rfl, rfl⟩
  rw [hfin, zipWith_setWeight_self (hf.imp (fun _ _ h => h.2)) hw]

/-- Witness for claim C3 at a concrete input: a candidate list with the
same single address and weight as the retained list leaves the retained
host object untouched and reports no change. -/
theorem identical_list_is_noop_witness :
    (updateDynamicHostList [⟨5, "", "addrA", 2, "", false, false⟩]
      [⟨0, "host", "addrA", 2, "", false, false⟩] true).changed = false ∧
    (updateDynamicHostList [⟨5, "", "addrA", 2, "", false, false⟩]
      [⟨0, "host", "addrA", 2, "", false, false⟩] true).finalHosts =
      [⟨0, "host", "addrA", 2, "", false, false⟩] ∧
    (updateDynamicHostList [⟨5, "", "addrA", 2, "", false, false⟩]
      [⟨0, "host", "addrA", 2, "", false, false⟩] true).hostsAdded = [] ∧
    (updateDynamicHostList [⟨5, "", "addrA", 2, "", false, false⟩]
      [⟨0, "host", "addrA", 2, "", false, false⟩] true).hostsRemoved = [] :=
  identical_list_is_noop _ _ true
    (List.Forall₂.cons ⟨rfl, rfl⟩ List.Forall₂.nil) (by decide) (by decide)

/-- Claim C5: every publication — a snapshot install of the shape used at
construction and after reconciliation, and every `reloadHealthyHosts` —
leaves the healthy-hosts list exactly the filter of the all-hosts list by
the health predicate: the same host objects, in the same relative order
(a sublist, hence a subset, of all-hosts). -/
theorem healthy_hosts_filter_invariant (all : List Host)
    (perZone : List (List Host)) (s : HostSetState) :
    ((publishHosts all perZone).healthyHosts =
        (publishHosts all perZone).hosts.filter Host.healthy ∧
      (publishHosts all perZone).healthyHosts.Sublist (publishHosts all perZone).hosts) ∧
    ((reloadHealthyHosts s).healthyHosts =
        (reloadHealthyHosts s).hosts.filter Host.healthy ∧
      (reloadHealthyHosts s).healthyHosts.Sublist (reloadHealthyHosts s).hosts) := by
  refine ⟨⟨rfl, ?_⟩, ⟨rfl, ?_⟩⟩ <;> exact List.filter_sublist _

/-- Claim C6: when a candidate `c` (the first candidate carrying its
address) matches a retained host `x` by address, the final list contains
the very same host object with only the weight overwritten, clamped as
`min(100, max(1, w))`: identity (`hid`), address and every other field are
unchanged. -/
theorem matched_host_weight_overwrite (pre post currentHosts : List Host)
    (c x : Host) (d : Bool)
    (hpre : ∀ y ∈ pre, y.address ≠ c.address)
    (hx : x ∈ currentHosts) (haddr : x.address = c.address) :
    { x with weight := min 100 (max 1 c.weight) } ∈
      (updateDynamicHostList (pre ++ c :: post) currentHosts d).finalHosts := by
  have hmem : x.setWeight c.weight ∈
      (processCandidates d [] currentHosts (pre ++ c :: post)).finalHosts :=
    processCandidates_final_matched d pre [] currentHosts c x post hpre (by simp) hx haddr
  have heq : x.setWeight c.weight = { x with weight := min 100 (max 1 c.weight) } := by
    simp only [Host.setWeight, clampWeight_eq_min_max]
  rw [← heq]
  exact scan_finalHosts_subset_finalHosts _ _ d hmem

/-- Witness for claim C6 at a concrete input: candidate weight 250 is
clamped to 100 on the retained object, which keeps its identity, address,
hostname, zone and flags. -/
theorem matched_host_weight_overwrite_witness :
    (⟨0, "host", "addrA", 100, "z", true, false⟩ : Host) ∈
      (updateDynamicHostList [⟨9, "", "addrA", 250, "", false, false⟩]
        [⟨0, "host", "addrA", 3, "z", true, false⟩] false).finalHosts :=
  matched_host_weight_overwrite [] [] [⟨0, "host", "addrA", 3, "z", true, false⟩]
    ⟨9, "", "addrA", 250, "", false, false⟩ ⟨0, "host", "addrA", 3, "z", true, false⟩
    false (by simp) (by decide) rfl

/-- Claim C7: selecting the load-balancer type succeeds with `OriginalDst`
exactly when the discovery type is original-destination, and construction
fails (an exception is thrown) exactly when `ORIGINAL_DST_LB` is paired
with any other discovery type. -/
theorem original_dst_lb_requires_original_dst_type (t : DiscoveryType) :
    (resolveLbType .ORIGINAL_DST_LB t = .ok .OriginalDst ↔ t = .ORIGINAL_DST) ∧
    ((∃ msg, resolveLbType .ORIGINAL_DST_LB t = .error msg) ↔ t ≠ .ORIGINAL_DST) := by
  cases t <;> simp [resolveLbType]

theorem find?_append_first {α : Type} (f : α → Bool) (t : α) (post : List α) :
    ∀ pre : List α, (∀ u ∈ pre, f u = false) → f t = true →
      (pre ++ t :: post).find? f = some t := by
  intro pre
  induction pre with
  | nil =>
    intro _ ht
    simp [List.find?_cons_of_pos _ ht]
  | cons u rest ih =>
    intro hpre ht
    rw [List.cons_append,
      List.find?_cons_of_neg _ (by simp [hpre u (List.mem_cons_self _ _)]),
      ih (fun v hv => hpre v (List.mem_cons_of_mem _ hv)) ht]

/-- Claim C8: the two per-priority resource managers are each built by
`load` for their priority; `load` returns the 1024/1024/1024/3 default
ceilings when no thresholds entry matches the priority, and otherwise
takes each ceiling from the first matching entry, falling back to the same
defaults for any field that entry leaves unspecified. -/
theorem resource_manager_ceilings (ts : List CircuitBreakerThresholds)
    (p : RoutingPriority) :
    ((mkResourceManagers ts).defaultManager = loadResourceManager ts .DEFAULT ∧
      (mkResourceManagers ts).highManager = loadResourceManager ts .HIGH) ∧
    ((∀ t ∈ ts, t.priority ≠ p) →
      loadResourceManager ts p = ⟨1024, 1024, 1024, 3⟩) ∧
    (∀ t pre post, ts = pre ++ t :: post → t.priority = p →
      (∀ u ∈ pre, u.priority ≠ p) →
      loadResourceManager ts p =
        ⟨t.maxConnections.getD 1024, t.maxPendingRequests.getD 1024,
          t.maxRequests.getD 1024, t.maxRetries.getD 3⟩) := by
  refine ⟨⟨rfl, rfl⟩, ?_, ?_⟩
  · intro hnone
    unfold loadResourceManager
    rw [List.find?_eq_none.mpr (fun x hx => by simp [hnone x hx])]
  · intro t pre post hts htp hpre
    subst hts
    unfold loadResourceManager
    rw [find?_append_first _ t post pre
      (fun u hu => by simp [hpre u hu]) (by simp [htp])]

/-- Witness for claim C8 at a concrete input: a single HIGH entry with only
max-connections and max-retries set leaves DEFAULT on full defaults and
fills the HIGH manager from the entry with per-field fallbacks. -/
theorem resource_manager_ceilings_witness :
    loadResourceManager [⟨.HIGH, some 7, none, none, some 2⟩] .DEFAULT =
      ⟨1024, 1024, 1024, 3⟩ ∧
    loadResourceManager [⟨.HIGH, some 7, none, none, some 2⟩] .HIGH =
      ⟨7, 1024, 1024, 2⟩ := by
  refine ⟨?_, ?_⟩
  · exact (resource_manager_ceilings [⟨.HIGH, some 7, none, none, some 2⟩]
      .DEFAULT).2.1 (by decide)
  · exact (resource_manager_ceilings [⟨.HIGH, some 7, none, none, some 2⟩]
      .HIGH).2.2 ⟨.HIGH, some 7, none, none, some 2⟩ [] [] rfl rfl (by simp)

/-- Claim C9: DNS-polling cluster with one target, resolving to
`[10.0.0.1, 10.0.0.2]` and re-resolving to `[10.0.0.2, 10.0.0.3]` (fresh
host objects each cycle): the second cycle adds `10.0.0.3:80`, removes
`10.0.0.1:80` immediately (no health-check gating: the removed host is
healthy), publishes the final set `{10.0.0.2:80, 10.0.0.3:80}`, and the
host object for `10.0.0.2:80` keeps the identity (`hid = 1`) it was given
in the first cycle. -/
theorem dns_two_cycle_scenario :
    (dnsResolveStep ⟨[[]], publishHosts [] []⟩ 0
        (mkDnsHosts "foo.bar.com" 80 0 ["10.0.0.1", "10.0.0.2"])).1.hostSet.hosts =
      [⟨0, "foo.bar.com", "10.0.0.1:80", 1, "", false, false⟩,
        ⟨1, "foo.bar.com", "10.0.0.2:80", 1, "", false, false⟩] ∧
    (dnsResolveStep (dnsResolveStep ⟨[[]], publishHosts [] []⟩ 0
        (mkDnsHosts "foo.bar.com" 80 0 ["10.0.0.1", "10.0.0.2"])).1 0
        (mkDnsHosts "foo.bar.com" 80 2 ["10.0.0.2", "10.0.0.3"])).2.hostsAdded =
      [⟨3, "foo.bar.com", "10.0.0.3:80", 1, "", false, false⟩] ∧
    (dnsResolveStep (dnsResolveStep ⟨[[]], publishHosts [] []⟩ 0
        (mkDnsHosts "foo.bar.com" 80 0 ["10.0.0.1", "10.0.0.2"])).1 0
        (mkDnsHosts "foo.bar.com" 80 2 ["10.0.0.2", "10.0.0.3"])).2.hostsRemoved =
      [⟨0, "foo.bar.com", "10.0.0.1:80", 1, "", false, false⟩] ∧
    (dnsResolveStep (dnsResolveStep ⟨[[]], publishHosts [] []⟩ 0
        (mkDnsHosts "foo.bar.com" 80 0 ["10.0.0.1", "10.0.0.2"])).1 0
        (mkDnsHosts "foo.bar.com" 80 2 ["10.0.0.2", "10.0.0.3"])).1.hostSet.hosts =
      [⟨1, "foo.bar.com", "10.0.0.2:80", 1, "", false, false⟩,
        ⟨3, "foo.bar.com", "10.0.0.3:80", 1, "", false, false⟩] ∧
    (dnsResolveStep (dnsResolveStep ⟨[[]], publishHosts [] []⟩ 0
        (mkDnsHosts "foo.bar.com" 80 0 ["10.0.0.1", "10.0.0.2"])).1 0
        (mkDnsHosts "foo.bar.com" 80 2 ["10.0.0.2", "10.0.0.3"])).2.changed = true := by
  refine ⟨?_, ?_, ?_, ?_, ?_⟩ <;> rfl

theorem exists_first_with_address {a : String} {l : List Host}
    (h : a ∈ l.map Host.address) :
    ∃ pre c post, l = pre ++ c :: post ∧ c.address = a ∧
      ∀ y ∈ pre, y.address ≠ a := by
  induction l with
  | nil => simp at h
  | cons b rest ih =>
    by_cases hb : b.address = a
    · exact ⟨[], b, rest, rfl, hb, by simp⟩
    · have h2 : a ∈ rest.map Host.address := by
        simp only [List.map_cons, List.mem_cons] at h
        exact h.resolve_left (fun hh => hb hh.symm)
      obtain ⟨pre, c, post, hsplit, hc, hpre⟩ := ih h2
      refine ⟨b :: pre, c, post, by rw [hsplit, List.cons_append], hc, ?_⟩
      intro y hy
      rcases List.mem_cons.mp hy with hy | hy
      · exact hy ▸ hb
      · exact hpre y hy

/-- Claim C10: when the deduplicated candidate address set equals the
retained address set (weights free to differ), the reconciler reports
`changed = false` with nothing added or removed — so no republish or
notification follows — yet every retained host object has had its weight
overwritten in place with the matching candidate's clamped weight: the
final list consists exactly of the retained objects with the new weights. -/
theorem weight_only_update_is_silent (newHosts currentHosts : List Host) (d : Bool)
    (hset : ∀ a, a ∈ newHosts.map Host.address ↔ a ∈ currentHosts.map Host.address) :
    (updateDynamicHostList newHosts currentHosts d).changed = false ∧
    (updateDynamicHostList newHosts currentHosts d).hostsAdded = [] ∧
    (updateDynamicHostList newHosts currentHosts d).hostsRemoved = [] ∧
    (∀ x ∈ currentHosts, ∃ c, c ∈ newHosts ∧ c.address = x.address ∧
      x.setWeight c.weight ∈ (updateDynamicHostList newHosts currentHosts d).finalHosts) ∧
    (∀ y ∈ (updateDynamicHostList newHosts currentHosts d).finalHosts,
      ∃ x, x ∈ currentHosts ∧ ∃ c, c ∈ newHosts ∧ x.address = c.address ∧
        y = x.setWeight c.weight) := by
  obtain ⟨hrem, hadd⟩ := processCandidates_closed d newHosts [] currentHosts
    (fun x hx => ⟨(hset x.address).mpr (List.mem_map.mpr ⟨x, hx, rfl⟩), by simp⟩)
    (fun c hc => Or.inr ((hset c.address).mp (List.mem_map.mpr ⟨c, hc, rfl⟩)))
  rw [updateDynamicHostList_scan_empty newHosts currentHosts d hrem hadd]
  refine ⟨rfl, rfl, rfl, ?_, ?_⟩
  · intro x hx
    have hax : x.address ∈ newHosts.map Host.address :=
      (hset x.address).mpr (List.mem_map.mpr ⟨x, hx, rfl⟩)
    obtain ⟨pre, c, post, hsplit, hc, hpre⟩ := exists_first_with_address hax
    refine ⟨c, by rw [hsplit]; exact List.mem_append_right _ (List.mem_cons_self _ _),
      hc, ?_⟩
    rw [hsplit]
    exact processCandidates_final_matched d pre [] currentHosts c x post
      (fun y hy hyc => hpre y hy (hyc.trans hc)) (by simp) hx hc.symm
  · intro y hy
    rcases processCandidates_final_src d newHosts [] currentHosts y hy with h | h
    · rw [hadd] at h
      simp at h
    · exact h

/-- Witness for claim C10 at a concrete input: same single address with a
new weight 50 gives `changed = false`, no adds/removes, and the retained
object (identity 0) now carrying weight 50 in the final list. -/
theorem weight_only_update_is_silent_witness :
    (updateDynamicHostList [⟨5, "", "addrA", 50, "", false, false⟩]
      [⟨0, "host", "addrA", 2, "", false, false⟩] false).changed = false ∧
    (updateDynamicHostList [⟨5, "", "addrA", 50, "", false, false⟩]
      [⟨0, "host", "addrA", 2, "", false, false⟩] false).hostsAdded = [] ∧
    (updateDynamicHostList [⟨5, "", "addrA", 50, "", false, false⟩]
      [⟨0, "host", "addrA", 2, "", false, false⟩] false).hostsRemoved = [] := by
  have h := weight_only_update_is_silent [⟨5, "", "addrA", 50, "", false, false⟩]
    [⟨0, "host", "addrA", 2, "", false, false⟩] false (by intro a; simp)
  exact ⟨h.1, h.2.1, h.2.2.1⟩

end EnvoyUpstream
